import Mathlib

/-!
Verification of the differential API-conformance tester core
(src/src/models/client.rs): the structural JSON comparator
(Tester::compare_json_types / compare_json_objects / compare_json_arrays),
the mismatch record (TesterError), the dispatch orchestration
(Tester::compare) and the transport wrapper (RequestClient::request).

JSON values (serde_json::Value) are embedded as an inductive type; an
Object (serde_json::Map, a BTreeMap with unique keys) is embedded as an
association list iterated in list order, with a well-formedness predicate
recording the key uniqueness that the BTreeMap representation guarantees.
-/

namespace Fuzzer

/-- Embedding of serde_json::Value: Null, Bool, Number, String, Array,
Object. Numbers are embedded as integers; only the tag of a scalar ever
matters to the comparator. -/
inductive Value : Type where
  | null : Value
  | bool (b : Bool) : Value
  | num (n : Int) : Value
  | str (s : String) : Value
  | arr (xs : List Value) : Value
  | obj (kvs : List (String × Value)) : Value

/-- Embedding of serde_json::Map::get: the value at the first occurrence
of the key, if any. On the lists that embed real BTreeMaps the key occurs
at most once, so this is exactly the map lookup. -/
def getKey (kvs : List (String × Value)) (k : String) : Option Value :=
  match kvs with
  | [] => none
  | (k₀, v₀) :: rest => if k₀ = k then some v₀ else getKey rest k

/-- Embedding of serde_json::Map::contains_key. -/
def containsKey (kvs : List (String × Value)) (k : String) : Bool :=
  match kvs with
  | [] => false
  | (k₀, _) :: rest => k₀ = k || containsKey rest k


/-- Embedding of the TesterError enum of client.rs. Its only variant is
JsonTypeMismatch, carrying the endpoint identifier and the two
conflicting value snapshots (fields endpoint, client_value,
actual_value). The enum has no variant for transport or serialization
failures, and the record has no path field. -/
inductive TesterError : Type where
  | jsonTypeMismatch (endpoint : String) (client_value : Value) (actual_value : Value)

/-- The endpoint field of a mismatch record. -/
def TesterError.endpoint : TesterError → String
  | .jsonTypeMismatch e _ _ => e

/-- The client_value field of a mismatch record. -/
def TesterError.client_value : TesterError → Value
  | .jsonTypeMismatch _ c _ => c

/-- The actual_value field of a mismatch record. -/
def TesterError.actual_value : TesterError → Value
  | .jsonTypeMismatch _ _ a => a

mutual

/-- Embedding of Tester::compare_json_types: dispatch on the pair of
tags; scalars of equal tag succeed; differing tags yield an immediate
JsonTypeMismatch capturing both values. -/
def compare_json_types (e : String) (a b : Value) : Except TesterError Unit :=
  match a, b with
  | .obj map_a, .obj map_b => compare_json_objects e map_a map_b
  | .arr arr_a, .arr arr_b => compare_json_arrays e arr_a arr_b
  | .str _, .str _ => .ok ()
  | .num _, .num _ => .ok ()
  | .bool _, .bool _ => .ok ()
  | .null, .null => .ok ()
  | a, b => .error (.jsonTypeMismatch e a b)
termination_by (sizeOf a, sizeOf b)

/-- Embedding of Tester::compare_json_objects: the first loop over map_a
(compareObjectsLoopA), then the second loop over the keys of map_b
(compareObjectsLoopB). -/
def compare_json_objects (e : String) (map_a map_b : List (String × Value)) :
    Except TesterError Unit :=
  match compareObjectsLoopA e map_b map_a with
  | .error err => .error err
  | .ok _ => compareObjectsLoopB e map_a map_b
termination_by (sizeOf map_a, sizeOf map_b + 1)

/-- The first loop of compare_json_objects: for each (key, value_a) pair
of map_a in iteration order, recurse into the paired value when map_b has
the key, otherwise report a mismatch with actual_value Null. -/
def compareObjectsLoopA (e : String) (map_b : List (String × Value)) :
    (l : List (String × Value)) → Except TesterError Unit
  | [] => .ok ()
  | (key, value_a) :: rest =>
    match getKey map_b key with
    | some value_b =>
      match compare_json_types e value_a value_b with
      | .error err => .error err
      | .ok _ => compareObjectsLoopA e map_b rest
    | none => .error (.jsonTypeMismatch e value_a .null)
termination_by l => (sizeOf l, sizeOf map_b)
decreasing_by
  · apply Prod.Lex.left
    simp only [List.cons.sizeOf_spec, Prod.mk.sizeOf_spec]
    omega
  · apply Prod.Lex.left
    simp only [List.cons.sizeOf_spec, Prod.mk.sizeOf_spec]
    omega

/-- The second loop of compare_json_objects: for each key of map_b in
iteration order, report a mismatch with client_value Null when map_a
lacks the key. -/
def compareObjectsLoopB (e : String) (map_a : List (String × Value)) :
    (l : List (String × Value)) → Except TesterError Unit
  | [] => .ok ()
  | (key, value_b) :: rest =>
    if containsKey map_a key then compareObjectsLoopB e map_a rest
    else .error (.jsonTypeMismatch e .null value_b)
termination_by l => (0, sizeOf l)
decreasing_by
  · apply Prod.Lex.right
    simp only [List.cons.sizeOf_spec, Prod.mk.sizeOf_spec]
    omega

/-- Embedding of Tester::compare_json_arrays: differing lengths yield an
immediate mismatch capturing both arrays in full; otherwise the zipped
pairwise loop (compareArraysLoop). -/
def compare_json_arrays (e : String) (arr_a arr_b : List Value) :
    Except TesterError Unit :=
  if arr_a.length ≠ arr_b.length then
    .error (.jsonTypeMismatch e (.arr arr_a) (.arr arr_b))
  else compareArraysLoop e arr_a arr_b
termination_by (sizeOf arr_a, sizeOf arr_b + 1)

/-- The pairwise loop of compare_json_arrays over zip(arr_a, arr_b):
recurse in index order, short-circuiting at the first mismatch. -/
def compareArraysLoop (e : String) : (la : List Value) → (lb : List Value) →
    Except TesterError Unit
  | elem_a :: rest_a, elem_b :: rest_b =>
    match compare_json_types e elem_a elem_b with
    | .error err => .error err
    | .ok _ => compareArraysLoop e rest_a rest_b
  | _, _ => .ok ()
termination_by la lb => (sizeOf la, sizeOf lb)

end

/-- Keys of an association list are pairwise distinct. The serde_json
Map is a BTreeMap, so every embedded object satisfies this. -/
def keysNodup : List (String × Value) → Bool
  | [] => true
  | (k, _) :: rest => !containsKey rest k && keysNodup rest

mutual

/-- Representation invariant of the embedding: every object node in the
tree has pairwise-distinct keys, as the BTreeMap representation of
serde_json::Map guarantees by construction. -/
def WFValue : Value → Bool
  | .null => true
  | .bool _ => true
  | .num _ => true
  | .str _ => true
  | .arr xs => WFList xs
  | .obj kvs => keysNodup kvs && WFPairs kvs
termination_by a => sizeOf a

/-- WFValue on every element of a list. -/
def WFList : (l : List Value) → Bool
  | [] => true
  | x :: xs => WFValue x && WFList xs
termination_by l => sizeOf l

/-- WFValue on every value of an association list. -/
def WFPairs : (l : List (String × Value)) → Bool
  | [] => true
  | (_, v) :: rest => WFValue v && WFPairs rest
termination_by l => sizeOf l
decreasing_by
  · simp only [List.cons.sizeOf_spec, Prod.mk.sizeOf_spec]
    omega
  · simp only [List.cons.sizeOf_spec, Prod.mk.sizeOf_spec]
    omega

end

mutual

/-- Modelled from the spec (shape-equality invariant, section 3): two
values are shape-equal iff they carry the same JSON tag, and for Object
have exactly the same key set with shape-equal values per key, and for
Array have exactly the same length with shape-equal elements pairwise in
index order; scalars of equal tag are shape-equal regardless of value.
The per-key clause iterates the pairs of the first map, which on the
unique-key maps the BTreeMap embedding produces is exactly one visit per
key. -/
def shapeEqSpec : Value → Value → Bool
  | .null, .null => true
  | .bool _, .bool _ => true
  | .num _, .num _ => true
  | .str _, .str _ => true
  | .arr xs, .arr ys => decide (xs.length = ys.length) && shapeEqList xs ys
  | .obj ma, .obj mb =>
    ma.all (fun kv => containsKey mb kv.1) && mb.all (fun kv => containsKey ma kv.1)
      && shapeEqPerKey mb ma
  | _, _ => false
termination_by a b => (sizeOf a, sizeOf b)

/-- Shape-equal values per key: each (key, value) pair of the iterated
map is shape-equal to the value the other map holds at that key. -/
def shapeEqPerKey (mb : List (String × Value)) :
    (l : List (String × Value)) → Bool
  | [] => true
  | (k, va) :: rest =>
    (match getKey mb k with
      | some vb => shapeEqSpec va vb
      | none => false) && shapeEqPerKey mb rest
termination_by l => (sizeOf l, sizeOf mb)
decreasing_by
  · apply Prod.Lex.left
    simp only [List.cons.sizeOf_spec, Prod.mk.sizeOf_spec]
    omega
  · apply Prod.Lex.left
    simp only [List.cons.sizeOf_spec, Prod.mk.sizeOf_spec]
    omega

/-- Pairwise shape-equality of two element lists in index order. -/
def shapeEqList : (la : List Value) → (lb : List Value) → Bool
  | [], [] => true
  | x :: xs, y :: ys => shapeEqSpec x y && shapeEqList xs ys
  | _, _ => false
termination_by la lb => (sizeOf la, sizeOf lb)

end

mutual

/-- Depth of a JSON tree: scalars have depth 0, containers one more than
their deepest child. Used to bound the recursion depth of the
comparator. -/
def depthV : Value → Nat
  | .null => 0
  | .bool _ => 0
  | .num _ => 0
  | .str _ => 0
  | .arr xs => depthList xs + 1
  | .obj kvs => depthPairs kvs + 1
termination_by a => sizeOf a

/-- Maximum depth over a list of values. -/
def depthList : (l : List Value) → Nat
  | [] => 0
  | x :: xs => max (depthV x) (depthList xs)
termination_by l => sizeOf l

/-- Maximum depth over the values of an association list. -/
def depthPairs : (l : List (String × Value)) → Nat
  | [] => 0
  | (_, v) :: rest => max (depthV v) (depthPairs rest)
termination_by l => sizeOf l
decreasing_by
  · simp only [List.cons.sizeOf_spec, Prod.mk.sizeOf_spec]
    omega
  · simp only [List.cons.sizeOf_spec, Prod.mk.sizeOf_spec]
    omega

end

mutual

/-- Fuel-indexed variant of compare_json_types: structurally identical to
the source recursion, but returns none when the fuel is exhausted instead
of recursing. Used to state termination of the comparator as a theorem:
finite fuel, computed from the depth of the first tree, always suffices. -/
def compareFuelTypes : Nat → String → Value → Value → Option (Except TesterError Unit)
  | 0, _, _, _ => none
  | fuel + 1, e, a, b =>
    match a, b with
    | .obj map_a, .obj map_b => compareFuelObjects fuel e map_a map_b
    | .arr arr_a, .arr arr_b => compareFuelArrays fuel e arr_a arr_b
    | .str _, .str _ => some (.ok ())
    | .num _, .num _ => some (.ok ())
    | .bool _, .bool _ => some (.ok ())
    | .null, .null => some (.ok ())
    | a, b => some (.error (.jsonTypeMismatch e a b))
termination_by fuel _ _ _ => (fuel, 0)

/-- Fuel-indexed variant of compare_json_objects. -/
def compareFuelObjects (fuel : Nat) (e : String) (map_a map_b : List (String × Value)) :
    Option (Except TesterError Unit) :=
  match compareFuelLoopA fuel e map_b map_a with
  | none => none
  | some (.error err) => some (.error err)
  | some (.ok _) => some (compareObjectsLoopB e map_a map_b)
termination_by (fuel, sizeOf map_a + sizeOf map_b + 1)

/-- Fuel-indexed variant of compareObjectsLoopA. -/
def compareFuelLoopA (fuel : Nat) (e : String) (map_b : List (String × Value)) :
    (l : List (String × Value)) → Option (Except TesterError Unit)
  | [] => some (.ok ())
  | (key, value_a) :: rest =>
    match getKey map_b key with
    | some value_b =>
      match compareFuelTypes fuel e value_a value_b with
      | none => none
      | some (.error err) => some (.error err)
      | some (.ok _) => compareFuelLoopA fuel e map_b rest
    | none => some (.error (.jsonTypeMismatch e value_a .null))
termination_by l => (fuel, sizeOf l + sizeOf map_b)
decreasing_by
  · apply Prod.Lex.right
    simp only [List.cons.sizeOf_spec, Prod.mk.sizeOf_spec]
    omega
  · apply Prod.Lex.right
    simp only [List.cons.sizeOf_spec, Prod.mk.sizeOf_spec]
    omega

/-- Fuel-indexed variant of compare_json_arrays. -/
def compareFuelArrays (fuel : Nat) (e : String) (arr_a arr_b : List Value) :
    Option (Except TesterError Unit) :=
  if arr_a.length ≠ arr_b.length then
    some (.error (.jsonTypeMismatch e (.arr arr_a) (.arr arr_b)))
  else compareFuelLoop fuel e arr_a arr_b
termination_by (fuel, sizeOf arr_a + sizeOf arr_b + 1)

/-- Fuel-indexed variant of compareArraysLoop. -/
def compareFuelLoop (fuel : Nat) (e : String) :
    (la : List Value) → (lb : List Value) → Option (Except TesterError Unit)
  | elem_a :: rest_a, elem_b :: rest_b =>
    match compareFuelTypes fuel e elem_a elem_b with
    | none => none
    | some (.error err) => some (.error err)
    | some (.ok _) => compareFuelLoop fuel e rest_a rest_b
  | _, _ => some (.ok ())
termination_by la lb => (fuel, sizeOf la + sizeOf lb)
decreasing_by
  · apply Prod.Lex.right
    simp only [List.cons.sizeOf_spec]
    omega
  · apply Prod.Lex.right
    simp only [List.cons.sizeOf_spec]
    omega

end

/-- Embedding of reqwest::Method restricted to the arms that
RequestClient::request distinguishes; other covers the catch-all arm. -/
inductive Method : Type where
  | get
  | delete
  | post
  | put
  | other
deriving DecidableEq

/-- Opaque model of the transport error type of the underlying HTTP
library (reqwest::Error), observed only at the core boundary. -/
structure TransportError : Type where
  msg : String
deriving DecidableEq

/-- A request as built by RequestClient::request just before send: the
joined URL, the optional ("data", encoded) query pair, and the optional
JSON payload. -/
structure BuiltRequest : Type where
  url : String
  query : Option (String × String)
  jsonBody : Option Value

/-- Outcome of RequestClient::request up to the send boundary: either a
built request handed to the transport, or a panic raised before any
request is sent. -/
inductive BuildOutcome : Type where
  | panicked
  | built (r : BuiltRequest)

/-- True exactly on the panic outcome. -/
def BuildOutcome.isPanic : BuildOutcome → Bool
  | .panicked => true
  | .built _ => false

/-- Query-string rendering of one scalar value; containers and Null have
no query representation. Part of the boundary model of the external
serde_urlencoded library. -/
def scalarQueryPart : Value → Option String
  | .bool b => some (cond b "true" "false")
  | .num n => some (toString n)
  | .str s => some s
  | _ => none

/-- Encodes the pairs of a flat object into k=v query fragments, failing
if any value has no scalar query representation. -/
def encodePairs : List (String × Value) → Option (List String)
  | [] => some []
  | (k, v) :: rest =>
    match scalarQueryPart v, encodePairs rest with
    | some s, some tail => some ((k ++ "=" ++ s) :: tail)
    | _, _ => none

/-- Boundary model of serde_urlencoded::to_string on a serde_json value:
only a flat object whose values are scalars encodes to a query string;
any other value (a bare scalar, Null inside, or a nested container)
fails to encode. -/
def urlencodedEncode : Value → Option String
  | .obj kvs => (encodePairs kvs).map (fun parts => String.intercalate "&" parts)
  | _ => none

/-- Embedding of RequestClient::request up to the send boundary. The URL
joins the base URL and the endpoint. For GET and DELETE an optional body
is serialized into query parameters, and the unwrap on the encoding
result is embedded as the panicked outcome; for POST and PUT an optional
body is attached as the JSON payload; the catch-all arm builds the bare
request. -/
def RequestClient.request (base_url : String) (method : Method) (endpoint : String)
    (body : Option Value) : BuildOutcome :=
  let url := base_url ++ "/" ++ endpoint
  match method with
  | .get | .delete =>
    match body with
    | some data =>
      match urlencodedEncode data with
      | some query => .built ⟨url, some ("data", query), none⟩
      | none => .panicked
    | none => .built ⟨url, none, none⟩
  | .post | .put =>
    match body with
    | some data => .built ⟨url, none, some data⟩
    | none => .built ⟨url, none, none⟩
  | .other => .built ⟨url, none, none⟩

/-- Result of one Transport Client call as Tester::compare observes it:
the call panicked inside request (encoding unwrap), failed with a
transport error that the question-mark operator propagates (send or JSON
parse failure), or produced a parsed JSON body. -/
inductive ReqResult : Type where
  | panicked
  | transport (err : TransportError)
  | ok (body : Value)

/-- True exactly when the call produced a parsed body. -/
def ReqResult.isOk : ReqResult → Bool
  | .ok _ => true
  | _ => false

/-- Outcome of a whole Tester::compare call: a propagated panic, a
propagated transport error (of the transport library type, unwrapped), a
shape mismatch (the TesterError value), or success. -/
inductive CompareOutcome : Type where
  | panicked
  | transport (err : TransportError)
  | mismatch (err : TesterError)
  | ok

/-- True exactly on the shape-mismatch outcome. -/
def CompareOutcome.isShapeMismatch : CompareOutcome → Bool
  | .mismatch _ => true
  | _ => false

/-- True exactly when the outcome returns an error value to the caller
(transport error or mismatch record); a panic returns nothing. -/
def CompareOutcome.isErrorReturn : CompareOutcome → Bool
  | .transport _ => true
  | .mismatch _ => true
  | _ => false

/-- Embedding of the control flow of Tester::compare: the client
(candidate) call runs first and each fallible step propagates with the
question-mark operator before the next step runs; only when both bodies
are available is the comparator applied. Parameterized by the comparator
so that claims that the comparator is never invoked become statements
over every comparator. -/
def Tester.compare (comparator : Value → Value → Except TesterError Unit)
    (response_client response_actual : ReqResult) : CompareOutcome :=
  match response_client with
  | .panicked => .panicked
  | .transport err => .transport err
  | .ok body_client =>
    match response_actual with
    | .panicked => .panicked
    | .transport err => .transport err
    | .ok body_actual =>
      match comparator body_client body_actual with
      | .error terr => .mismatch terr
      | .ok _ => .ok

/-- One segment of a comparison path: an object key or an array index. -/
inductive PathSeg : Type where
  | key (k : String)
  | idx (i : Nat)
deriving DecidableEq

mutual

/-- Modelled from the spec: compare_shape of section 4.3 reduced to its
path component — the ordered sequence of object keys and array indices
descended to the first divergence, or none when the two trees are
shape-equal. The code under test carries no such path; this definition
exists to name the path a given divergence sits at. -/
def specComparePath : Value → Value → List PathSeg → Option (List PathSeg)
  | .obj ma, .obj mb, path => specComparePathObjects ma mb path
  | .arr xa, .arr xb, path => specComparePathArrays xa xb path
  | .str _, .str _, _ => none
  | .num _, .num _, _ => none
  | .bool _, .bool _, _ => none
  | .null, .null, _ => none
  | _, _, path => some path
termination_by a b _ => (sizeOf a, sizeOf b)

/-- Object clause of specComparePath: first scan the keys of the first
map, then the keys of the second. -/
def specComparePathObjects (ma mb : List (String × Value)) (path : List PathSeg) :
    Option (List PathSeg) :=
  match specComparePathLoopFst mb path ma with
  | some p => some p
  | none => specComparePathLoopSnd ma path mb
termination_by (sizeOf ma, sizeOf mb + 1)

/-- First-map scan: a key absent from the other map diverges at the path
extended by the key; a present key recurses into the paired values. -/
def specComparePathLoopFst (mb : List (String × Value)) (path : List PathSeg) :
    (l : List (String × Value)) → Option (List PathSeg)
  | [] => none
  | (k, va) :: rest =>
    match getKey mb k with
    | some vb =>
      match specComparePath va vb (path ++ [.key k]) with
      | some p => some p
      | none => specComparePathLoopFst mb path rest
    | none => some (path ++ [.key k])
termination_by l => (sizeOf l, sizeOf mb)
decreasing_by
  · apply Prod.Lex.left
    simp only [List.cons.sizeOf_spec, Prod.mk.sizeOf_spec]
    omega
  · apply Prod.Lex.left
    simp only [List.cons.sizeOf_spec, Prod.mk.sizeOf_spec]
    omega

/-- Second-map scan: a key absent from the first map diverges at the path
extended by the key. -/
def specComparePathLoopSnd (ma : List (String × Value)) (path : List PathSeg) :
    (l : List (String × Value)) → Option (List PathSeg)
  | [] => none
  | (k, _) :: rest =>
    if containsKey ma k then specComparePathLoopSnd ma path rest
    else some (path ++ [.key k])
termination_by l => (0, sizeOf l)
decreasing_by
  · apply Prod.Lex.right
    simp only [List.cons.sizeOf_spec, Prod.mk.sizeOf_spec]
    omega

/-- Array clause of specComparePath: a length mismatch diverges at the
array node itself; otherwise the elements are scanned pairwise. -/
def specComparePathArrays (xa xb : List Value) (path : List PathSeg) :
    Option (List PathSeg) :=
  if xa.length ≠ xb.length then some path
  else specComparePathLoopIdx 0 path xa xb
termination_by (sizeOf xa, sizeOf xb + 1)

/-- Pairwise element scan carrying the current index. -/
def specComparePathLoopIdx (i : Nat) (path : List PathSeg) :
    (la : List Value) → (lb : List Value) → Option (List PathSeg)
  | a :: rest_a, b :: rest_b =>
    match specComparePath a b (path ++ [.idx i]) with
    | some p => some p
    | none => specComparePathLoopIdx (i + 1) path rest_a rest_b
  | _, _ => none
termination_by la lb => (sizeOf la, sizeOf lb)

end

theorem getKey_isSome_of_containsKey {kvs : List (String × Value)} {k : String}
    (h : containsKey kvs k = true) : (getKey kvs k).isSome := by
  induction kvs with
  | nil => simp [containsKey] at h
  | cons hd tl ih =>
    obtain ⟨k₀, v₀⟩ := hd
    simp only [containsKey, Bool.or_eq_true, decide_eq_true_eq] at h
    by_cases hk : k₀ = k
    · simp [getKey, hk]
    · rcases h with h | h
      · exact absurd h hk
      · simpa [getKey, hk] using ih h

theorem containsKey_of_getKey {kvs : List (String × Value)} {k : String} {v : Value}
    (h : getKey kvs k = some v) : containsKey kvs k = true := by
  induction kvs with
  | nil => simp [getKey] at h
  | cons hd tl ih =>
    obtain ⟨k₀, v₀⟩ := hd
    by_cases hk : k₀ = k
    · simp [containsKey, hk]
    · simp only [getKey, if_neg hk] at h
      simp [containsKey, hk, ih h]

theorem sizeOf_getKey_lt {kvs : List (String × Value)} {k : String} {v : Value}
    (h : getKey kvs k = some v) : sizeOf v < sizeOf kvs := by
  induction kvs with
  | nil => simp [getKey] at h
  | cons hd tl ih =>
    obtain ⟨k₀, v₀⟩ := hd
    simp only [getKey] at h
    split at h
    · cases h
      simp only [List.cons.sizeOf_spec, Prod.mk.sizeOf_spec]
      omega
    · have := ih h
      simp only [List.cons.sizeOf_spec, Prod.mk.sizeOf_spec]
      omega


theorem sizeOf_snd_lt_of_mem {l : List (String × Value)} {k : String} {v : Value}
    (h : (k, v) ∈ l) : sizeOf v < sizeOf l := by
  have h1 := List.sizeOf_lt_of_mem h
  simp only [Prod.mk.sizeOf_spec] at h1
  omega

theorem objects_ok_iff (e : String) (ma mb : List (String × Value)) :
    compare_json_objects e ma mb = .ok () ↔
      (compareObjectsLoopA e mb ma = .ok () ∧ compareObjectsLoopB e ma mb = .ok ()) := by
  cases h : compareObjectsLoopA e mb ma with
  | error err => simp [compare_json_objects, h]
  | ok u => cases u; simp [compare_json_objects, h]

theorem loopB_ok_iff (e : String) (map_a : List (String × Value)) :
    ∀ l, (compareObjectsLoopB e map_a l = .ok () ↔
      l.all (fun kv => containsKey map_a kv.1) = true) := by
  intro l
  induction l with
  | nil => simp [compareObjectsLoopB]
  | cons hd tl ih =>
    obtain ⟨k, v⟩ := hd
    by_cases hc : containsKey map_a k = true
    · simp [compareObjectsLoopB, hc, ih]
    · simp [compareObjectsLoopB, hc]

theorem loopA_ok_iff (e : String) (map_b : List (String × Value)) :
    ∀ l, (∀ k va vb, (k, va) ∈ l → getKey map_b k = some vb →
        (compare_json_types e va vb = .ok () ↔ shapeEqSpec va vb = true)) →
      (compareObjectsLoopA e map_b l = .ok () ↔ shapeEqPerKey map_b l = true) := by
  intro l
  induction l with
  | nil => intro _; simp [compareObjectsLoopA, shapeEqPerKey]
  | cons hd tl ih =>
    intro IH
    obtain ⟨k, va⟩ := hd
    cases hg : getKey map_b k with
    | none => simp [compareObjectsLoopA, shapeEqPerKey, hg]
    | some vb =>
      have hiff := IH k va vb (List.mem_cons_self _ _) hg
      have htl := ih (fun k' va' vb' hm hg' => IH k' va' vb' (List.mem_cons_of_mem _ hm) hg')
      cases hcmp : compare_json_types e va vb with
      | error err =>
        have hns : ¬ shapeEqSpec va vb = true := by
          intro hs
          have hok := hiff.mpr hs
          rw [hcmp] at hok
          exact Except.noConfusion hok
        simp [compareObjectsLoopA, shapeEqPerKey, hg, hcmp, hns]
      | ok u =>
        cases u
        simp [compareObjectsLoopA, shapeEqPerKey, hg, hcmp, hiff.mp hcmp, htl]

theorem arrLoop_ok_iff (e : String) :
    ∀ la lb : List Value, la.length = lb.length →
      (∀ x y, x ∈ la → y ∈ lb →
        (compare_json_types e x y = .ok () ↔ shapeEqSpec x y = true)) →
      (compareArraysLoop e la lb = .ok () ↔ shapeEqList la lb = true) := by
  intro la
  induction la with
  | nil =>
    intro lb hlen _
    cases lb with
    | nil => simp [compareArraysLoop, shapeEqList]
    | cons y ys => simp at hlen
  | cons x xs ih =>
    intro lb hlen IH
    cases lb with
    | nil => simp at hlen
    | cons y ys =>
      simp only [List.length_cons, Nat.succ.injEq] at hlen
      have hiff := IH x y (List.mem_cons_self _ _) (List.mem_cons_self _ _)
      have htl := ih ys hlen
        (fun x' y' hx hy => IH x' y' (List.mem_cons_of_mem _ hx) (List.mem_cons_of_mem _ hy))
      cases hcmp : compare_json_types e x y with
      | error err =>
        have hns : ¬ shapeEqSpec x y = true := by
          intro hs
          have hok := hiff.mpr hs
          rw [hcmp] at hok
          exact Except.noConfusion hok
        simp [compareArraysLoop, shapeEqList, hcmp, hns]
      | ok u =>
        cases u
        simp [compareArraysLoop, shapeEqList, hcmp, hiff.mp hcmp, htl]

theorem perKey_all_contains {mb : List (String × Value)} :
    ∀ {l}, shapeEqPerKey mb l = true → l.all (fun kv => containsKey mb kv.1) = true := by
  intro l
  induction l with
  | nil => simp
  | cons hd tl ih =>
    obtain ⟨k, va⟩ := hd
    intro h
    cases hg : getKey mb k with
    | none => simp [shapeEqPerKey, hg] at h
    | some vb =>
      simp only [shapeEqPerKey, hg, Bool.and_eq_true] at h
      simp [List.all_cons, containsKey_of_getKey hg, ih h.2]

theorem compare_ok_iff_shapeEq_aux :
    ∀ n (e : String) (a b : Value), sizeOf a + sizeOf b ≤ n →
      (compare_json_types e a b = .ok () ↔ shapeEqSpec a b = true) := by
  intro n
  induction n using Nat.strong_induction_on with
  | _ n IH =>
    intro e a b hn
    cases a with
    | null => cases b <;> simp [compare_json_types, shapeEqSpec]
    | bool x => cases b <;> simp [compare_json_types, shapeEqSpec]
    | num x => cases b <;> simp [compare_json_types, shapeEqSpec]
    | str x => cases b <;> simp [compare_json_types, shapeEqSpec]
    | arr xs =>
      cases b with
      | arr ys =>
        have hx : sizeOf xs < sizeOf (Value.arr xs) := by simp_arith
        have hy : sizeOf ys < sizeOf (Value.arr ys) := by simp_arith
        by_cases hlen : xs.length = ys.length
        · have helems : ∀ x y, x ∈ xs → y ∈ ys →
              (compare_json_types e x y = .ok () ↔ shapeEqSpec x y = true) := by
            intro x y hxm hym
            have hx2 := List.sizeOf_lt_of_mem hxm
            have hy2 := List.sizeOf_lt_of_mem hym
            exact IH (sizeOf x + sizeOf y) (by omega) e x y (Nat.le_refl _)
          have hloop := arrLoop_ok_iff e xs ys hlen helems
          simp [compare_json_types, compare_json_arrays, hlen, shapeEqSpec, hloop]
        · simp [compare_json_types, compare_json_arrays, hlen, shapeEqSpec]
      | null => simp [compare_json_types, shapeEqSpec]
      | bool y => simp [compare_json_types, shapeEqSpec]
      | num y => simp [compare_json_types, shapeEqSpec]
      | str y => simp [compare_json_types, shapeEqSpec]
      | obj mb => simp [compare_json_types, shapeEqSpec]
    | obj ma =>
      cases b with
      | obj mb =>
        have hma : sizeOf ma < sizeOf (Value.obj ma) := by simp_arith
        have hmb : sizeOf mb < sizeOf (Value.obj mb) := by simp_arith
        have hpairs : ∀ k va vb, (k, va) ∈ ma → getKey mb k = some vb →
            (compare_json_types e va vb = .ok () ↔ shapeEqSpec va vb = true) := by
          intro k va vb hm hg
          have hva := sizeOf_snd_lt_of_mem hm
          have hvb := sizeOf_getKey_lt hg
          exact IH (sizeOf va + sizeOf vb) (by omega) e va vb (Nat.le_refl _)
        have hA := loopA_ok_iff e mb ma hpairs
        have hB := loopB_ok_iff e ma mb
        have hobj := objects_ok_iff e ma mb
        constructor
        · intro hok
          rw [compare_json_types] at hok
          have hab := hobj.mp hok
          have hperKey := hA.mp hab.1
          have hball := hB.mp hab.2
          simp [shapeEqSpec, hperKey, hball, perKey_all_contains hperKey]
        · intro hs
          simp only [shapeEqSpec, Bool.and_eq_true] at hs
          rw [compare_json_types]
          exact hobj.mpr ⟨hA.mpr hs.2, hB.mpr hs.1.2⟩
      | null => simp [compare_json_types, shapeEqSpec]
      | bool y => simp [compare_json_types, shapeEqSpec]
      | num y => simp [compare_json_types, shapeEqSpec]
      | str y => simp [compare_json_types, shapeEqSpec]
      | arr ys => simp [compare_json_types, shapeEqSpec]

theorem compare_ok_iff_shapeEq (e : String) (a b : Value) :
    compare_json_types e a b = .ok () ↔ shapeEqSpec a b = true :=
  compare_ok_iff_shapeEq_aux (sizeOf a + sizeOf b) e a b (Nat.le_refl _)

theorem containsKey_of_mem {l : List (String × Value)} {k : String} {v : Value}
    (h : (k, v) ∈ l) : containsKey l k = true := by
  induction l with
  | nil => simp at h
  | cons hd tl ih =>
    obtain ⟨k₀, v₀⟩ := hd
    rcases List.mem_cons.mp h with heq | hm
    · obtain ⟨rfl, rfl⟩ := Prod.mk.injEq .. ▸ heq
      simp [containsKey]
    · simp [containsKey, ih hm]

theorem mem_of_getKey {l : List (String × Value)} {k : String} {v : Value}
    (h : getKey l k = some v) : (k, v) ∈ l := by
  induction l with
  | nil => simp [getKey] at h
  | cons hd tl ih =>
    obtain ⟨k₀, v₀⟩ := hd
    simp only [getKey] at h
    split at h
    · rename_i hk
      cases h
      subst hk
      exact List.mem_cons_self _ _
    · exact List.mem_cons_of_mem _ (ih h)

theorem getKey_eq_of_mem_nodup {l : List (String × Value)} {k : String} {v : Value}
    (hnd : keysNodup l = true) (hm : (k, v) ∈ l) : getKey l k = some v := by
  induction l with
  | nil => simp at hm
  | cons hd tl ih =>
    obtain ⟨k₀, v₀⟩ := hd
    simp only [keysNodup, Bool.and_eq_true, Bool.not_eq_true'] at hnd
    rcases List.mem_cons.mp hm with heq | hm'
    · obtain ⟨rfl, rfl⟩ := Prod.mk.injEq .. ▸ heq
      simp [getKey]
    · by_cases hk : k₀ = k
      · exfalso
        subst hk
        rw [containsKey_of_mem hm'] at hnd
        exact Bool.noConfusion hnd.1
      · simp [getKey, hk, ih hnd.2 hm']

theorem WFPairs_mem {l : List (String × Value)} (h : WFPairs l = true)
    {k : String} {v : Value} (hm : (k, v) ∈ l) : WFValue v = true := by
  induction l with
  | nil => simp at hm
  | cons hd tl ih =>
    obtain ⟨k₀, v₀⟩ := hd
    simp only [WFPairs, Bool.and_eq_true] at h
    rcases List.mem_cons.mp hm with heq | hm'
    · obtain ⟨rfl, rfl⟩ := Prod.mk.injEq .. ▸ heq
      exact h.1
    · exact ih h.2 hm'

theorem WFList_mem {l : List Value} (h : WFList l = true)
    {v : Value} (hm : v ∈ l) : WFValue v = true := by
  induction l with
  | nil => simp at hm
  | cons hd tl ih =>
    simp only [WFList, Bool.and_eq_true] at h
    rcases List.mem_cons.mp hm with heq | hm'
    · exact heq ▸ h.1
    · exact ih h.2 hm'

theorem perKey_refl {ma : List (String × Value)} (hnd : keysNodup ma = true)
    (hrefl : ∀ k v, (k, v) ∈ ma → shapeEqSpec v v = true) :
    ∀ l, (∀ kv, kv ∈ l → kv ∈ ma) → shapeEqPerKey ma l = true := by
  intro l
  induction l with
  | nil => intro _; simp [shapeEqPerKey]
  | cons hd tl ih =>
    intro hsub
    obtain ⟨k, va⟩ := hd
    have hma := hsub (k, va) (List.mem_cons_self _ _)
    have hg := getKey_eq_of_mem_nodup hnd hma
    simp [shapeEqPerKey, hg, hrefl k va hma,
      ih (fun kv hkv => hsub kv (List.mem_cons_of_mem _ hkv))]

theorem shapeEqList_refl (xs : List Value)
    (hrefl : ∀ x, x ∈ xs → shapeEqSpec x x = true) : shapeEqList xs xs = true := by
  induction xs with
  | nil => simp [shapeEqList]
  | cons x tl ih =>
    simp [shapeEqList, hrefl x (List.mem_cons_self _ _),
      ih (fun y hy => hrefl y (List.mem_cons_of_mem _ hy))]

theorem shapeEqSpec_refl_aux :
    ∀ n (t : Value), sizeOf t ≤ n → WFValue t = true → shapeEqSpec t t = true := by
  intro n
  induction n using Nat.strong_induction_on with
  | _ n IH =>
    intro t hn hwf
    cases t with
    | null => simp [shapeEqSpec]
    | bool x => simp [shapeEqSpec]
    | num x => simp [shapeEqSpec]
    | str x => simp [shapeEqSpec]
    | arr xs =>
      simp only [WFValue] at hwf
      have helems : ∀ x, x ∈ xs → shapeEqSpec x x = true := by
        intro x hx
        have hsz := List.sizeOf_lt_of_mem hx
        have hxs : sizeOf xs < sizeOf (Value.arr xs) := by simp_arith
        exact IH (sizeOf x) (by omega) x (Nat.le_refl _) (WFList_mem hwf hx)
      simp [shapeEqSpec, shapeEqList_refl xs helems]
    | obj ma =>
      simp only [WFValue, Bool.and_eq_true] at hwf
      have hvals : ∀ k v, (k, v) ∈ ma → shapeEqSpec v v = true := by
        intro k v hm
        have hsz := sizeOf_snd_lt_of_mem hm
        have hma : sizeOf ma < sizeOf (Value.obj ma) := by simp_arith
        exact IH (sizeOf v) (by omega) v (Nat.le_refl _) (WFPairs_mem hwf.2 hm)
      have hcont : ma.all (fun kv => containsKey ma kv.1) = true := by
        rw [List.all_eq_true]
        intro kv hkv
        obtain ⟨k, v⟩ := kv
        exact containsKey_of_mem hkv
      simp [shapeEqSpec, hcont, perKey_refl hwf.1 hvals ma (fun kv hkv => hkv)]

theorem shapeEqSpec_refl (t : Value) (hwf : WFValue t = true) : shapeEqSpec t t = true :=
  shapeEqSpec_refl_aux (sizeOf t) t (Nat.le_refl _) hwf

theorem perKey_extract {mb : List (String × Value)} :
    ∀ {l}, shapeEqPerKey mb l = true → ∀ {k va}, (k, va) ∈ l →
      ∃ vb, getKey mb k = some vb ∧ shapeEqSpec va vb = true := by
  intro l
  induction l with
  | nil => intro _ k va hm; simp at hm
  | cons hd tl ih =>
    intro h k va hm
    obtain ⟨k₀, v₀⟩ := hd
    cases hg : getKey mb k₀ with
    | none => simp [shapeEqPerKey, hg] at h
    | some vb₀ =>
      simp only [shapeEqPerKey, hg, Bool.and_eq_true] at h
      rcases List.mem_cons.mp hm with heq | hm'
      · obtain ⟨rfl, rfl⟩ := Prod.mk.injEq .. ▸ heq
        exact ⟨vb₀, hg, h.1⟩
      · exact ih h.2 hm'

theorem perKey_build {ma : List (String × Value)} :
    ∀ l, (∀ k vb, (k, vb) ∈ l →
        ∃ va, getKey ma k = some va ∧ shapeEqSpec vb va = true) →
      shapeEqPerKey ma l = true := by
  intro l
  induction l with
  | nil => intro _; simp [shapeEqPerKey]
  | cons hd tl ih =>
    intro hall
    obtain ⟨k, vb⟩ := hd
    obtain ⟨va, hg, hs⟩ := hall k vb (List.mem_cons_self _ _)
    simp [shapeEqPerKey, hg, hs,
      ih (fun k' vb' hm => hall k' vb' (List.mem_cons_of_mem _ hm))]

theorem shapeEqList_symm :
    ∀ (xs ys : List Value),
      (∀ x y, x ∈ xs → y ∈ ys → shapeEqSpec x y = true → shapeEqSpec y x = true) →
      shapeEqList xs ys = true → shapeEqList ys xs = true := by
  intro xs
  induction xs with
  | nil =>
    intro ys _ h
    cases ys with
    | nil => simp [shapeEqList]
    | cons y tl => simp [shapeEqList] at h
  | cons x xtl ih =>
    intro ys hsymm h
    cases ys with
    | nil => simp [shapeEqList] at h
    | cons y ytl =>
      simp only [shapeEqList, Bool.and_eq_true] at h
      simp [shapeEqList, hsymm x y (List.mem_cons_self _ _) (List.mem_cons_self _ _) h.1,
        ih ytl (fun x' y' hx hy =>
          hsymm x' y' (List.mem_cons_of_mem _ hx) (List.mem_cons_of_mem _ hy)) h.2]

theorem shapeEqSpec_symm_aux :
    ∀ n (a b : Value), sizeOf a + sizeOf b ≤ n → WFValue a = true → WFValue b = true →
      shapeEqSpec a b = true → shapeEqSpec b a = true := by
  intro n
  induction n using Nat.strong_induction_on with
  | _ n IH =>
    intro a b hn hwa hwb hab
    cases a with
    | null => cases b <;> simp_all [shapeEqSpec]
    | bool x => cases b <;> simp_all [shapeEqSpec]
    | num x => cases b <;> simp_all [shapeEqSpec]
    | str x => cases b <;> simp_all [shapeEqSpec]
    | arr xs =>
      cases b with
      | arr ys =>
        simp only [WFValue] at hwa hwb
        simp only [shapeEqSpec, Bool.and_eq_true, decide_eq_true_eq] at hab
        have hsymm : ∀ x y, x ∈ xs → y ∈ ys →
            shapeEqSpec x y = true → shapeEqSpec y x = true := by
          intro x y hx hy hs
          have hx2 := List.sizeOf_lt_of_mem hx
          have hy2 := List.sizeOf_lt_of_mem hy
          have hxs : sizeOf xs < sizeOf (Value.arr xs) := by simp_arith
          have hys : sizeOf ys < sizeOf (Value.arr ys) := by simp_arith
          exact IH (sizeOf x + sizeOf y) (by omega) x y (Nat.le_refl _)
            (WFList_mem hwa hx) (WFList_mem hwb hy) hs
        simp [shapeEqSpec, hab.1, shapeEqList_symm xs ys hsymm hab.2]
      | null => simp [shapeEqSpec] at hab
      | bool y => simp [shapeEqSpec] at hab
      | num y => simp [shapeEqSpec] at hab
      | str y => simp [shapeEqSpec] at hab
      | obj mb => simp [shapeEqSpec] at hab
    | obj ma =>
      cases b with
      | obj mb =>
        simp only [WFValue, Bool.and_eq_true] at hwa hwb
        simp only [shapeEqSpec, Bool.and_eq_true] at hab
        obtain ⟨⟨hacont, hbcont⟩, hperKey⟩ := hab
        have hma : sizeOf ma < sizeOf (Value.obj ma) := by simp_arith
        have hmb : sizeOf mb < sizeOf (Value.obj mb) := by simp_arith
        have hstep : ∀ k vb, (k, vb) ∈ mb →
            ∃ va, getKey ma k = some va ∧ shapeEqSpec vb va = true := by
          intro k vb hmemb
          have hck : containsKey ma k = true := by
            have := List.all_eq_true.mp hbcont (k, vb) hmemb
            simpa using this
          obtain ⟨va, hgva⟩ := Option.isSome_iff_exists.mp (getKey_isSome_of_containsKey hck)
          have hmema : (k, va) ∈ ma := mem_of_getKey hgva
          obtain ⟨vb', hgvb', hs⟩ := perKey_extract hperKey hmema
          have hgvb : getKey mb k = some vb := getKey_eq_of_mem_nodup hwb.1 hmemb
          rw [hgvb] at hgvb'
          cases hgvb'
          have hsa := sizeOf_snd_lt_of_mem hmema
          have hsb := sizeOf_snd_lt_of_mem hmemb
          have hsymm := IH (sizeOf va + sizeOf vb) (by omega) va vb (Nat.le_refl _)
            (WFPairs_mem hwa.2 hmema) (WFPairs_mem hwb.2 hmemb) hs
          exact ⟨va, hgva, hsymm⟩
        simp [shapeEqSpec, hacont, hbcont, perKey_build mb hstep]
      | null => simp [shapeEqSpec] at hab
      | bool y => simp [shapeEqSpec] at hab
      | num y => simp [shapeEqSpec] at hab
      | str y => simp [shapeEqSpec] at hab
      | arr ys => simp [shapeEqSpec] at hab

theorem shapeEqSpec_symm {a b : Value} (hwa : WFValue a = true) (hwb : WFValue b = true)
    (hab : shapeEqSpec a b = true) : shapeEqSpec b a = true :=
  shapeEqSpec_symm_aux (sizeOf a + sizeOf b) a b (Nat.le_refl _) hwa hwb hab

theorem loopA_missing (e : String) (mb : List (String × Value)) :
    ∀ pre (k : String) (v : Value) post,
      (∀ k' v', (k', v') ∈ pre → ∃ w, getKey mb k' = some w ∧
          compare_json_types e v' w = .ok ()) →
      getKey mb k = none →
      compareObjectsLoopA e mb (pre ++ (k, v) :: post) =
        .error (.jsonTypeMismatch e v .null) := by
  intro pre
  induction pre with
  | nil =>
    intro k v post _ hget
    simp [compareObjectsLoopA, hget]
  | cons hd tl ih =>
    intro k v post hpre hget
    obtain ⟨k₀, v₀⟩ := hd
    obtain ⟨w, hg, hok⟩ := hpre k₀ v₀ (List.mem_cons_self _ _)
    simp only [List.cons_append, compareObjectsLoopA, hg, hok]
    exact ih k v post (fun k' v' hm => hpre k' v' (List.mem_cons_of_mem _ hm)) hget

theorem loopA_all_ok (e : String) (mb : List (String × Value)) :
    ∀ l, (∀ k v, (k, v) ∈ l → ∃ w, getKey mb k = some w ∧
        compare_json_types e v w = .ok ()) →
      compareObjectsLoopA e mb l = .ok () := by
  intro l
  induction l with
  | nil => intro _; simp [compareObjectsLoopA]
  | cons hd tl ih =>
    intro hall
    obtain ⟨k, v⟩ := hd
    obtain ⟨w, hg, hok⟩ := hall k v (List.mem_cons_self _ _)
    simp only [compareObjectsLoopA, hg, hok]
    exact ih (fun k' v' hm => hall k' v' (List.mem_cons_of_mem _ hm))

theorem loopB_missing (e : String) (ma : List (String × Value)) :
    ∀ pre (k : String) (vb : Value) post,
      (∀ k' v', (k', v') ∈ pre → containsKey ma k' = true) →
      containsKey ma k = false →
      compareObjectsLoopB e ma (pre ++ (k, vb) :: post) =
        .error (.jsonTypeMismatch e .null vb) := by
  intro pre
  induction pre with
  | nil =>
    intro k vb post _ hmiss
    simp [compareObjectsLoopB, hmiss]
  | cons hd tl ih =>
    intro k vb post hpre hmiss
    obtain ⟨k₀, v₀⟩ := hd
    have hc := hpre k₀ v₀ (List.mem_cons_self _ _)
    simp only [List.cons_append, compareObjectsLoopB, hc, if_true]
    exact ih k vb post (fun k' v' hm => hpre k' v' (List.mem_cons_of_mem _ hm)) hmiss

theorem objects_error_of_loopA {e : String} {ma mb : List (String × Value)}
    {err : TesterError} (h : compareObjectsLoopA e mb ma = .error err) :
    compare_json_objects e ma mb = .error err := by
  simp [compare_json_objects, h]

theorem objects_loopB_of_loopA_ok {e : String} {ma mb : List (String × Value)}
    (h : compareObjectsLoopA e mb ma = .ok ()) :
    compare_json_objects e ma mb = compareObjectsLoopB e ma mb := by
  simp [compare_json_objects, h]

theorem arrLoop_first_error (e : String) :
    ∀ (p1 : List Value) (a : Value) s1 (p2 : List Value) (b : Value) s2
      (r : TesterError),
      p1.length = p2.length →
      (∀ xy, xy ∈ p1.zip p2 → compare_json_types e xy.1 xy.2 = .ok ()) →
      compare_json_types e a b = .error r →
      compareArraysLoop e (p1 ++ a :: s1) (p2 ++ b :: s2) = .error r := by
  intro p1
  induction p1 with
  | nil =>
    intro a s1 p2 b s2 r hlen _ herr
    cases p2 with
    | nil => simp [compareArraysLoop, herr]
    | cons y ys => simp at hlen
  | cons x xs ih =>
    intro a s1 p2 b s2 r hlen hpre herr
    cases p2 with
    | nil => simp at hlen
    | cons y ys =>
      simp only [List.length_cons, Nat.succ.injEq] at hlen
      have hxy := hpre (x, y) (by simp [List.zip_cons_cons])
      simp only [List.cons_append, compareArraysLoop, hxy]
      exact ih a s1 ys b s2 r hlen
        (fun xy hm => hpre xy (by simp [List.zip_cons_cons, hm])) herr

theorem depthList_mem {l : List Value} {x : Value} (h : x ∈ l) :
    depthV x ≤ depthList l := by
  induction l with
  | nil => simp at h
  | cons hd tl ih =>
    rcases List.mem_cons.mp h with heq | hm
    · subst heq
      simp [depthList]
    · simp only [depthList]
      exact le_trans (ih hm) (le_max_right _ _)

theorem depthPairs_mem {l : List (String × Value)} {k : String} {v : Value}
    (h : (k, v) ∈ l) : depthV v ≤ depthPairs l := by
  induction l with
  | nil => simp at h
  | cons hd tl ih =>
    obtain ⟨k₀, v₀⟩ := hd
    rcases List.mem_cons.mp h with heq | hm
    · obtain ⟨rfl, rfl⟩ := Prod.mk.injEq .. ▸ heq
      simp [depthPairs]
    · simp only [depthPairs]
      exact le_trans (ih hm) (le_max_right _ _)

theorem fuelLoopA_eq (fuel : Nat) (e : String) (map_b : List (String × Value)) :
    ∀ l, (∀ k va vb, (k, va) ∈ l → getKey map_b k = some vb →
        compareFuelTypes fuel e va vb = some (compare_json_types e va vb)) →
      compareFuelLoopA fuel e map_b l = some (compareObjectsLoopA e map_b l) := by
  intro l
  induction l with
  | nil => intro _; simp [compareFuelLoopA, compareObjectsLoopA]
  | cons hd tl ih =>
    intro IH
    obtain ⟨k, va⟩ := hd
    cases hg : getKey map_b k with
    | none => simp [compareFuelLoopA, compareObjectsLoopA, hg]
    | some vb =>
      have heq := IH k va vb (List.mem_cons_self _ _) hg
      cases hcmp : compare_json_types e va vb with
      | error err =>
        rw [hcmp] at heq
        simp [compareFuelLoopA, compareObjectsLoopA, hg, heq, hcmp]
      | ok u =>
        cases u
        rw [hcmp] at heq
        simp only [compareFuelLoopA, compareObjectsLoopA, hg, heq, hcmp]
        exact ih (fun k' va' vb' hm hg' => IH k' va' vb' (List.mem_cons_of_mem _ hm) hg')

theorem fuelLoop_eq (fuel : Nat) (e : String) :
    ∀ la lb : List Value, (∀ x y, x ∈ la → y ∈ lb →
        compareFuelTypes fuel e x y = some (compare_json_types e x y)) →
      compareFuelLoop fuel e la lb = some (compareArraysLoop e la lb) := by
  intro la
  induction la with
  | nil =>
    intro lb _
    cases lb <;> simp [compareFuelLoop, compareArraysLoop]
  | cons x xs ih =>
    intro lb IH
    cases lb with
    | nil => simp [compareFuelLoop, compareArraysLoop]
    | cons y ys =>
      have heq := IH x y (List.mem_cons_self _ _) (List.mem_cons_self _ _)
      cases hcmp : compare_json_types e x y with
      | error err =>
        rw [hcmp] at heq
        simp [compareFuelLoop, compareArraysLoop, heq, hcmp]
      | ok u =>
        cases u
        rw [hcmp] at heq
        simp only [compareFuelLoop, compareArraysLoop, heq, hcmp]
        exact ih ys (fun x' y' hx hy =>
          IH x' y' (List.mem_cons_of_mem _ hx) (List.mem_cons_of_mem _ hy))

theorem compareFuel_sufficient :
    ∀ (fuel : Nat) (e : String) (a b : Value), depthV a < fuel →
      compareFuelTypes fuel e a b = some (compare_json_types e a b) := by
  intro fuel
  induction fuel with
  | zero => intro e a b hd; omega
  | succ f ih =>
    intro e a b hd
    cases a with
    | null => cases b <;> simp [compareFuelTypes, compare_json_types]
    | bool x => cases b <;> simp [compareFuelTypes, compare_json_types]
    | num x => cases b <;> simp [compareFuelTypes, compare_json_types]
    | str x => cases b <;> simp [compareFuelTypes, compare_json_types]
    | arr xs =>
      cases b with
      | arr ys =>
        simp only [depthV] at hd
        have helems : ∀ x y, x ∈ xs → y ∈ ys →
            compareFuelTypes f e x y = some (compare_json_types e x y) := by
          intro x y hx _
          have := depthList_mem hx
          exact ih e x y (by omega)
        have hloop := fuelLoop_eq f e xs ys helems
        by_cases hlen : xs.length = ys.length
        · simp [compareFuelTypes, compare_json_types, compareFuelArrays,
            compare_json_arrays, hlen, hloop]
        · simp [compareFuelTypes, compare_json_types, compareFuelArrays,
            compare_json_arrays, hlen]
      | null => simp [compareFuelTypes, compare_json_types]
      | bool y => simp [compareFuelTypes, compare_json_types]
      | num y => simp [compareFuelTypes, compare_json_types]
      | str y => simp [compareFuelTypes, compare_json_types]
      | obj mb => simp [compareFuelTypes, compare_json_types]
    | obj ma =>
      cases b with
      | obj mb =>
        simp only [depthV] at hd
        have hpairs : ∀ k va vb, (k, va) ∈ ma → getKey mb k = some vb →
            compareFuelTypes f e va vb = some (compare_json_types e va vb) := by
          intro k va vb hm _
          have := depthPairs_mem hm
          exact ih e va vb (by omega)
        have hloopA := fuelLoopA_eq f e mb ma hpairs
        cases hA : compareObjectsLoopA e mb ma with
        | error err =>
          rw [hA] at hloopA
          simp [compareFuelTypes, compare_json_types, compareFuelObjects,
            compare_json_objects, hloopA, hA]
        | ok u =>
          cases u
          rw [hA] at hloopA
          simp [compareFuelTypes, compare_json_types, compareFuelObjects,
            compare_json_objects, hloopA, hA]
      | null => simp [compareFuelTypes, compare_json_types]
      | bool y => simp [compareFuelTypes, compare_json_types]
      | num y => simp [compareFuelTypes, compare_json_types]
      | str y => simp [compareFuelTypes, compare_json_types]
      | arr ys => simp [compareFuelTypes, compare_json_types]

theorem loopB_error_endpoint (e : String) (ma : List (String × Value)) :
    ∀ l err, compareObjectsLoopB e ma l = .error err → err.endpoint = e := by
  intro l
  induction l with
  | nil => intro err h; simp [compareObjectsLoopB] at h
  | cons hd tl ih =>
    intro err h
    obtain ⟨k, vb⟩ := hd
    by_cases hc : containsKey ma k = true
    · simp only [compareObjectsLoopB, hc, if_true] at h
      exact ih err h
    · simp only [compareObjectsLoopB, hc, if_false, Except.error.injEq,
        Bool.false_eq_true] at h
      subst h
      rfl

theorem loopA_error_endpoint (e : String) (mb : List (String × Value)) :
    ∀ l, (∀ k va vb, (k, va) ∈ l → getKey mb k = some vb →
        ∀ err, compare_json_types e va vb = .error err → err.endpoint = e) →
      ∀ err, compareObjectsLoopA e mb l = .error err → err.endpoint = e := by
  intro l
  induction l with
  | nil => intro _ err h; simp [compareObjectsLoopA] at h
  | cons hd tl ih =>
    intro IH err h
    obtain ⟨k, va⟩ := hd
    cases hg : getKey mb k with
    | none =>
      simp only [compareObjectsLoopA, hg, Except.error.injEq] at h
      subst h
      rfl
    | some vb =>
      simp only [compareObjectsLoopA, hg] at h
      cases hcmp : compare_json_types e va vb with
      | error err' =>
        rw [hcmp] at h
        simp only [Except.error.injEq] at h
        subst h
        exact IH k va vb (List.mem_cons_self _ _) hg err' hcmp
      | ok u =>
        cases u
        rw [hcmp] at h
        exact ih (fun k' va' vb' hm hg' => IH k' va' vb' (List.mem_cons_of_mem _ hm) hg')
          err h

theorem arrLoop_error_endpoint (e : String) :
    ∀ la lb : List Value, (∀ x y, x ∈ la → y ∈ lb →
        ∀ err, compare_json_types e x y = .error err → err.endpoint = e) →
      ∀ err, compareArraysLoop e la lb = .error err → err.endpoint = e := by
  intro la
  induction la with
  | nil => intro lb _ err h; cases lb <;> simp [compareArraysLoop] at h
  | cons x xs ih =>
    intro lb IH err h
    cases lb with
    | nil => simp [compareArraysLoop] at h
    | cons y ys =>
      simp only [compareArraysLoop] at h
      cases hcmp : compare_json_types e x y with
      | error err' =>
        rw [hcmp] at h
        simp only [Except.error.injEq] at h
        subst h
        exact IH x y (List.mem_cons_self _ _) (List.mem_cons_self _ _) err' hcmp
      | ok u =>
        cases u
        rw [hcmp] at h
        exact ih ys (fun x' y' hx hy =>
          IH x' y' (List.mem_cons_of_mem _ hx) (List.mem_cons_of_mem _ hy)) err h

theorem compare_error_endpoint_aux :
    ∀ n (e : String) (a b : Value), sizeOf a + sizeOf b ≤ n →
      ∀ err, compare_json_types e a b = .error err → err.endpoint = e := by
  intro n
  induction n using Nat.strong_induction_on with
  | _ n IH =>
    intro e a b hn err h
    cases a with
    | null =>
      cases b <;> simp only [compare_json_types, Except.error.injEq] at h <;>
        (try exact absurd h (by simp)) <;> (subst h; rfl)
    | bool x =>
      cases b <;> simp only [compare_json_types, Except.error.injEq] at h <;>
        (try exact absurd h (by simp)) <;> (subst h; rfl)
    | num x =>
      cases b <;> simp only [compare_json_types, Except.error.injEq] at h <;>
        (try exact absurd h (by simp)) <;> (subst h; rfl)
    | str x =>
      cases b <;> simp only [compare_json_types, Except.error.injEq] at h <;>
        (try exact absurd h (by simp)) <;> (subst h; rfl)
    | arr xs =>
      cases b with
      | arr ys =>
        rw [compare_json_types] at h
        by_cases hlen : xs.length = ys.length
        · simp only [compare_json_arrays, hlen, ne_eq, not_true_eq_false,
            if_false] at h
          have helems : ∀ x y, x ∈ xs → y ∈ ys →
              ∀ err', compare_json_types e x y = .error err' → err'.endpoint = e := by
            intro x y hx hy err' h'
            have hx2 := List.sizeOf_lt_of_mem hx
            have hy2 := List.sizeOf_lt_of_mem hy
            have hxs : sizeOf xs < sizeOf (Value.arr xs) := by simp_arith
            have hys : sizeOf ys < sizeOf (Value.arr ys) := by simp_arith
            exact IH (sizeOf x + sizeOf y) (by omega) e x y (Nat.le_refl _) err' h'
          exact arrLoop_error_endpoint e xs ys helems err h
        · simp only [compare_json_arrays, hlen, ne_eq, not_false_eq_true, if_true,
            Except.error.injEq] at h
          subst h
          rfl
      | null => simp only [compare_json_types, Except.error.injEq] at h; subst h; rfl
      | bool y => simp only [compare_json_types, Except.error.injEq] at h; subst h; rfl
      | num y => simp only [compare_json_types, Except.error.injEq] at h; subst h; rfl
      | str y => simp only [compare_json_types, Except.error.injEq] at h; subst h; rfl
      | obj mb => simp only [compare_json_types, Except.error.injEq] at h; subst h; rfl
    | obj ma =>
      cases b with
      | obj mb =>
        rw [compare_json_types] at h
        have hpairs : ∀ k va vb, (k, va) ∈ ma → getKey mb k = some vb →
            ∀ err', compare_json_types e va vb = .error err' → err'.endpoint = e := by
          intro k va vb hm hg err' h'
          have hva := sizeOf_snd_lt_of_mem hm
          have hvb := sizeOf_getKey_lt hg
          have hma : sizeOf ma < sizeOf (Value.obj ma) := by simp_arith
          have hmb : sizeOf mb < sizeOf (Value.obj mb) := by simp_arith
          exact IH (sizeOf va + sizeOf vb) (by omega) e va vb (Nat.le_refl _) err' h'
        cases hA : compareObjectsLoopA e mb ma with
        | error err' =>
          simp only [compare_json_objects, hA, Except.error.injEq] at h
          subst h
          exact loopA_error_endpoint e mb ma hpairs err' hA
        | ok u =>
          cases u
          simp only [compare_json_objects, hA] at h
          exact loopB_error_endpoint e ma mb err h
      | null => simp only [compare_json_types, Except.error.injEq] at h; subst h; rfl
      | bool y => simp only [compare_json_types, Except.error.injEq] at h; subst h; rfl
      | num y => simp only [compare_json_types, Except.error.injEq] at h; subst h; rfl
      | str y => simp only [compare_json_types, Except.error.injEq] at h; subst h; rfl
      | arr ys => simp only [compare_json_types, Except.error.injEq] at h; subst h; rfl

theorem compare_error_endpoint {e : String} {a b : Value} {err : TesterError}
    (h : compare_json_types e a b = .error err) : err.endpoint = e :=
  compare_error_endpoint_aux (sizeOf a + sizeOf b) e a b (Nat.le_refl _) err h

/-- C1: on well-formed values (unique object keys, as serde_json::Map
guarantees), compare_json_types returns success if and only if the two
values are shape-equal under the recursive definition of the spec: same
tag, same key set with shape-equal values per key for objects, same
length with pairwise shape-equal elements for arrays, and tag-only
comparison for scalars. -/
theorem compare_succeeds_iff_shape_equal (e : String) (a b : Value)
    (hwa : WFValue a = true) (hwb : WFValue b = true) :
    compare_json_types e a b = .ok () ↔ shapeEqSpec a b = true :=
  compare_ok_iff_shapeEq e a b

/-- Witness for C1 at two concrete well-formed objects of equal shape. -/
theorem compare_succeeds_iff_shape_equal_witness :
    WFValue (Value.obj [("id", Value.num 1), ("name", Value.str "QuizA")]) = true ∧
    WFValue (Value.obj [("id", Value.num 2), ("name", Value.str "Other")]) = true ∧
    (compare_json_types "ep" (Value.obj [("id", Value.num 1), ("name", Value.str "QuizA")])
        (Value.obj [("id", Value.num 2), ("name", Value.str "Other")]) = .ok () ↔
      shapeEqSpec (Value.obj [("id", Value.num 1), ("name", Value.str "QuizA")])
        (Value.obj [("id", Value.num 2), ("name", Value.str "Other")]) = true) :=
  ⟨by simp [WFValue, WFPairs, keysNodup, containsKey],
   by simp [WFValue, WFPairs, keysNodup, containsKey],
   compare_succeeds_iff_shape_equal "ep" _ _
     (by simp [WFValue, WFPairs, keysNodup, containsKey])
     (by simp [WFValue, WFPairs, keysNodup, containsKey])⟩

/-- C2 counterexample: two comparisons whose first divergences lie at
different paths (key k at depth one versus keys j then m at depth two,
as the spec-side path tracker shows) produce identical mismatch records,
so the record cannot carry the path to the first divergence — the
TesterError record has endpoint and the two value snapshots but no path
field. -/
theorem mismatch_record_lacks_path :
    compare_json_types "ep" (Value.obj [("k", Value.num 1)])
      (Value.obj [("k", Value.str "s")]) =
      .error (.jsonTypeMismatch "ep" (Value.num 1) (Value.str "s")) ∧
    compare_json_types "ep" (Value.obj [("j", Value.obj [("m", Value.num 1)])])
      (Value.obj [("j", Value.obj [("m", Value.str "s")])]) =
      .error (.jsonTypeMismatch "ep" (Value.num 1) (Value.str "s")) ∧
    specComparePath (Value.obj [("k", Value.num 1)])
      (Value.obj [("k", Value.str "s")]) [] = some [PathSeg.key "k"] ∧
    specComparePath (Value.obj [("j", Value.obj [("m", Value.num 1)])])
      (Value.obj [("j", Value.obj [("m", Value.str "s")])]) [] =
      some [PathSeg.key "j", PathSeg.key "m"] ∧
    ([PathSeg.key "k"] : List PathSeg) ≠ [PathSeg.key "j", PathSeg.key "m"] := by
  refine ⟨?_, ?_, ?_, ?_, by decide⟩
  · simp [compare_json_types, compare_json_objects, compareObjectsLoopA,
      compareObjectsLoopB, getKey, containsKey]
  · simp [compare_json_types, compare_json_objects, compareObjectsLoopA,
      compareObjectsLoopB, getKey, containsKey]
  · simp [specComparePath, specComparePathObjects, specComparePathLoopFst,
      specComparePathLoopSnd, getKey, containsKey]
  · simp [specComparePath, specComparePathObjects, specComparePathLoopFst,
      specComparePathLoopSnd, getKey, containsKey]

/-- C2 amended: every mismatch record the comparator returns carries the
endpoint identifier it was invoked with and consists of exactly that
endpoint and the two conflicting value snapshots; no path to the
divergence is recorded. -/
theorem mismatch_record_contents (e : String) (a b : Value) (err : TesterError)
    (h : compare_json_types e a b = .error err) :
    err.endpoint = e ∧
      err = .jsonTypeMismatch err.endpoint err.client_value err.actual_value := by
  refine ⟨compare_error_endpoint h, ?_⟩
  cases err
  rfl

/-- Witness for C2 amended at a concrete tag mismatch. -/
theorem mismatch_record_contents_witness :
    compare_json_types "ep" Value.null (Value.bool true) =
      .error (.jsonTypeMismatch "ep" Value.null (Value.bool true)) ∧
    ((TesterError.jsonTypeMismatch "ep" Value.null (Value.bool true)).endpoint = "ep" ∧
      TesterError.jsonTypeMismatch "ep" Value.null (Value.bool true) =
        .jsonTypeMismatch
          (TesterError.jsonTypeMismatch "ep" Value.null (Value.bool true)).endpoint
          (TesterError.jsonTypeMismatch "ep" Value.null (Value.bool true)).client_value
          (TesterError.jsonTypeMismatch "ep" Value.null (Value.bool true)).actual_value) :=
  ⟨by simp [compare_json_types],
   mismatch_record_contents "ep" Value.null (Value.bool true) _
     (by simp [compare_json_types])⟩

/-- C3 counterexample: a GET request whose body (a bare Null) has no
query-string encoding makes the request operation panic via unwrap — it
does not return a serialization error value; the Result type of request
carries only the transport library error and no serialization variant
exists anywhere in the code. -/
theorem get_encoding_failure_panics_cex :
    RequestClient.request "base" Method.get "ep" (some Value.null) =
      BuildOutcome.panicked ∧
    BuildOutcome.panicked.isPanic = true :=
  ⟨rfl, rfl⟩

/-- C3 amended: for every GET or DELETE request with a body whose
encoding into a query string fails, the request operation panics on the
unwrap of the encoding result instead of returning an error, and no
request is ever built or sent. -/
theorem get_encoding_failure_panics (base ep : String) (m : Method) (v : Value)
    (hm : m = Method.get ∨ m = Method.delete)
    (henc : urlencodedEncode v = none) :
    RequestClient.request base m ep (some v) = BuildOutcome.panicked := by
  rcases hm with rfl | rfl <;> simp [RequestClient.request, henc]

/-- Witness for C3 amended on a GET with a Null body. -/
theorem get_encoding_failure_panics_witness :
    (Method.get = Method.get ∨ Method.get = Method.delete) ∧
    urlencodedEncode Value.null = none ∧
    RequestClient.request "b" Method.get "e" (some Value.null) =
      BuildOutcome.panicked :=
  ⟨Or.inl rfl, rfl,
   get_encoding_failure_panics "b" "e" Method.get Value.null (Or.inl rfl) rfl⟩

/-- C4 counterexample: when the candidate-side Transport Client call
fails by panicking on body serialization, compare does not return that
failure as an error — the panic propagates and no error value reaches
the caller, refuting the claim for the serialization half of its
disjunction. -/
theorem compare_serialization_failure_cex :
    Tester.compare (compare_json_types "ep") ReqResult.panicked
      (ReqResult.ok Value.null) = CompareOutcome.panicked ∧
    CompareOutcome.panicked.isErrorReturn = false :=
  ⟨rfl, rfl⟩

/-- C4 amended: if either Transport Client call fails with a transport
error, compare returns that error immediately; if a call panics on body
encoding, the panic propagates; in every such case the outcome is the
same for every comparator (the Shape Comparator is never invoked) and no
mismatch diagnostic is produced. -/
theorem compare_fails_fast
    (f g : Value → Value → Except TesterError Unit) (rc ra : ReqResult)
    (h : rc.isOk = false ∨ ra.isOk = false) :
    Tester.compare f rc ra = Tester.compare g rc ra ∧
    (Tester.compare f rc ra).isShapeMismatch = false ∧
    (∀ err, rc = .transport err → Tester.compare f rc ra = .transport err) ∧
    (∀ err bc, rc = .ok bc → ra = .transport err →
      Tester.compare f rc ra = .transport err) ∧
    (rc = .panicked → Tester.compare f rc ra = .panicked) ∧
    (∀ bc, rc = .ok bc → ra = .panicked → Tester.compare f rc ra = .panicked) := by
  cases rc <;> cases ra <;>
    simp_all [Tester.compare, ReqResult.isOk, CompareOutcome.isShapeMismatch]

/-- Witness for C4 amended at a concrete transport failure on the
candidate side. -/
theorem compare_fails_fast_witness :
    ((ReqResult.transport ⟨"connection refused"⟩).isOk = false ∨
      (ReqResult.ok Value.null).isOk = false) ∧
    (Tester.compare (compare_json_types "ep")
        (ReqResult.transport ⟨"connection refused"⟩) (ReqResult.ok Value.null) =
      Tester.compare (fun _ _ => .ok ())
        (ReqResult.transport ⟨"connection refused"⟩) (ReqResult.ok Value.null) ∧
    (Tester.compare (compare_json_types "ep")
        (ReqResult.transport ⟨"connection refused"⟩)
        (ReqResult.ok Value.null)).isShapeMismatch = false ∧
    (∀ err, ReqResult.transport ⟨"connection refused"⟩ = .transport err →
      Tester.compare (compare_json_types "ep")
        (ReqResult.transport ⟨"connection refused"⟩) (ReqResult.ok Value.null) =
        .transport err) ∧
    (∀ err bc, ReqResult.transport ⟨"connection refused"⟩ = .ok bc →
      ReqResult.ok Value.null = .transport err →
      Tester.compare (compare_json_types "ep")
        (ReqResult.transport ⟨"connection refused"⟩) (ReqResult.ok Value.null) =
        .transport err) ∧
    (ReqResult.transport ⟨"connection refused"⟩ = .panicked →
      Tester.compare (compare_json_types "ep")
        (ReqResult.transport ⟨"connection refused"⟩) (ReqResult.ok Value.null) =
        .panicked) ∧
    (∀ bc, ReqResult.transport ⟨"connection refused"⟩ = .ok bc →
      ReqResult.ok Value.null = .panicked →
      Tester.compare (compare_json_types "ep")
        (ReqResult.transport ⟨"connection refused"⟩) (ReqResult.ok Value.null) =
        .panicked)) :=
  ⟨Or.inl rfl,
   compare_fails_fast (compare_json_types "ep") (fun _ _ => .ok ())
     (ReqResult.transport ⟨"connection refused"⟩) (ReqResult.ok Value.null)
     (Or.inl rfl)⟩

/-- C5 counterexample: a transport failure surfaces from compare as the
raw transport library error, not as a variant of the TesterError enum,
and a serialization failure surfaces as a panic carrying no error value
at all — so the three failure kinds are not variants of one closed error
enum returned uniformly. -/
theorem error_model_not_uniform_cex :
    Tester.compare (compare_json_types "ep")
      (ReqResult.transport ⟨"connection refused"⟩) (ReqResult.ok Value.null) =
      CompareOutcome.transport ⟨"connection refused"⟩ ∧
    (CompareOutcome.transport ⟨"connection refused"⟩).isShapeMismatch = false ∧
    Tester.compare (compare_json_types "ep") ReqResult.panicked
      (ReqResult.ok Value.null) = CompareOutcome.panicked ∧
    CompareOutcome.panicked.isErrorReturn = false :=
  ⟨rfl, rfl, rfl, rfl⟩

/-- C5 amended: the closed error enum of the code, TesterError, has
exactly one variant — the shape mismatch with endpoint and the two value
snapshots, with no embedded cause — and the outcomes of compare are
exactly: a propagated panic, a transport error of the transport library
type, a mismatch record, or success; only the mismatch goes through the
enum. -/
theorem error_model_surface :
    (∀ t : TesterError, ∃ ep cv av, t = .jsonTypeMismatch ep cv av) ∧
    (∀ (f : Value → Value → Except TesterError Unit) (rc ra : ReqResult),
      Tester.compare f rc ra = .panicked ∨
      (∃ err, Tester.compare f rc ra = .transport err) ∨
      (∃ terr, Tester.compare f rc ra = .mismatch terr) ∨
      Tester.compare f rc ra = .ok) := by
  constructor
  · intro t
    cases t with
    | jsonTypeMismatch ep cv av => exact ⟨ep, cv, av, rfl⟩
  · intro f rc ra
    cases rc with
    | panicked => exact Or.inl rfl
    | transport err => exact Or.inr (Or.inl ⟨err, rfl⟩)
    | ok bc =>
      cases ra with
      | panicked => exact Or.inl rfl
      | transport err => exact Or.inr (Or.inl ⟨err, rfl⟩)
      | ok ba =>
        cases hc : f bc ba with
        | error terr =>
          exact Or.inr (Or.inr (Or.inl ⟨terr, by simp [Tester.compare, hc]⟩))
        | ok u =>
          cases u
          exact Or.inr (Or.inr (Or.inr (by simp [Tester.compare, hc])))

/-- C6: when the first key of the first object (in iteration order) that
diverges is a key absent from the second object, the mismatch carries
that key value on the client side and Null on the reference side; when
every key of the first object matches and the second object holds an
extra key, the first such key (in iteration order) yields the symmetric
mismatch with Null on the client side; traversal stops at that first
divergence. -/
theorem object_missing_key_mismatch (e : String) :
    (∀ (pre post mb : List (String × Value)) (k : String) (v : Value),
      (∀ k' v', (k', v') ∈ pre → ∃ w, getKey mb k' = some w ∧
          compare_json_types e v' w = .ok ()) →
      getKey mb k = none →
      compare_json_types e (.obj (pre ++ (k, v) :: post)) (.obj mb) =
        .error (.jsonTypeMismatch e v .null)) ∧
    (∀ (ma pre post : List (String × Value)) (k : String) (vb : Value),
      (∀ k' v', (k', v') ∈ ma → ∃ w, getKey (pre ++ (k, vb) :: post) k' = some w ∧
          compare_json_types e v' w = .ok ()) →
      (∀ k' v', (k', v') ∈ pre → containsKey ma k' = true) →
      containsKey ma k = false →
      compare_json_types e (.obj ma) (.obj (pre ++ (k, vb) :: post)) =
        .error (.jsonTypeMismatch e .null vb)) := by
  constructor
  · intro pre post mb k v hpre hget
    rw [compare_json_types]
    exact objects_error_of_loopA (loopA_missing e mb pre k v post hpre hget)
  · intro ma pre post k vb hok hpre hmiss
    rw [compare_json_types]
    rw [objects_loopB_of_loopA_ok (loopA_all_ok e _ ma hok)]
    exact loopB_missing e ma pre k vb post hpre hmiss

/-- Witness for C6: a one-key object against the empty object, and the
empty object against a one-key object. -/
theorem object_missing_key_mismatch_witness :
    compare_json_types "ep" (.obj [("k", Value.num 1)]) (.obj []) =
      .error (.jsonTypeMismatch "ep" (Value.num 1) .null) ∧
    compare_json_types "ep" (.obj []) (.obj [("k", Value.num 2)]) =
      .error (.jsonTypeMismatch "ep" .null (Value.num 2)) :=
  ⟨(object_missing_key_mismatch "ep").1 [] [] [] "k" (Value.num 1)
      (by simp) rfl,
   (object_missing_key_mismatch "ep").2 [] [] [] "k" (Value.num 2)
      (by simp) (by simp) rfl⟩

/-- C7: arrays of differing lengths yield an immediate mismatch whose
captured client and reference values are the two arrays in full,
whatever their elements; arrays of equal length are compared pairwise in
index order and the first element-level mismatch is returned. -/
theorem array_length_mismatch (e : String) :
    (∀ (arr_a arr_b : List Value), arr_a.length ≠ arr_b.length →
      compare_json_types e (.arr arr_a) (.arr arr_b) =
        .error (.jsonTypeMismatch e (.arr arr_a) (.arr arr_b))) ∧
    (∀ (p1 s1 p2 s2 : List Value) (a b : Value) (r : TesterError),
      (p1 ++ a :: s1).length = (p2 ++ b :: s2).length →
      p1.length = p2.length →
      (∀ xy, xy ∈ p1.zip p2 → compare_json_types e xy.1 xy.2 = .ok ()) →
      compare_json_types e a b = .error r →
      compare_json_types e (.arr (p1 ++ a :: s1)) (.arr (p2 ++ b :: s2)) =
        .error r) := by
  constructor
  · intro arr_a arr_b hlen
    rw [compare_json_types]
    simp [compare_json_arrays, hlen]
  · intro p1 s1 p2 s2 a b r hlen hplen hpre herr
    rw [compare_json_types]
    simp only [compare_json_arrays, hlen, ne_eq, not_true_eq_false, if_false]
    exact arrLoop_first_error e p1 a s1 p2 b s2 r hplen hpre herr

/-- Witness for C7: the length-three against length-two scenario, and a
first-element-level mismatch at index one. -/
theorem array_length_mismatch_witness :
    compare_json_types "ep" (.arr [Value.num 1, Value.num 2, Value.num 3])
      (.arr [Value.num 1, Value.num 2]) =
      .error (.jsonTypeMismatch "ep" (.arr [Value.num 1, Value.num 2, Value.num 3])
        (.arr [Value.num 1, Value.num 2])) ∧
    compare_json_types "ep" (.arr [Value.num 1, Value.num 2])
      (.arr [Value.num 7, Value.str "x"]) =
      .error (.jsonTypeMismatch "ep" (Value.num 2) (Value.str "x")) :=
  ⟨(array_length_mismatch "ep").1 [Value.num 1, Value.num 2, Value.num 3]
      [Value.num 1, Value.num 2] (by simp),
   (array_length_mismatch "ep").2 [Value.num 1] [] [Value.num 7] []
      (Value.num 2) (Value.str "x") (.jsonTypeMismatch "ep" (Value.num 2) (Value.str "x"))
      (by simp) (by simp)
      (by
        intro xy hxy
        simp only [List.zip_cons_cons, List.zip_nil_right, List.mem_singleton] at hxy
        subst hxy
        simp [compare_json_types])
      (by simp [compare_json_types])⟩

/-- C8: on well-formed values, comparing a tree against itself succeeds,
and comparing any two trees of equal shape (equal tags everywhere, so
differing only in scalar values) succeeds. -/
theorem compare_reflexive (e : String) :
    (∀ t : Value, WFValue t = true → compare_json_types e t t = .ok ()) ∧
    (∀ t1 t2 : Value, shapeEqSpec t1 t2 = true →
      compare_json_types e t1 t2 = .ok ()) := by
  constructor
  · intro t hwf
    exact (compare_ok_iff_shapeEq e t t).mpr (shapeEqSpec_refl t hwf)
  · intro t1 t2 hs
    exact (compare_ok_iff_shapeEq e t1 t2).mpr hs

/-- Witness for C8 at a concrete object and a same-shape variant with
different scalar values. -/
theorem compare_reflexive_witness :
    WFValue (Value.obj [("id", Value.num 1), ("name", Value.str "QuizA")]) = true ∧
    compare_json_types "ep" (Value.obj [("id", Value.num 1), ("name", Value.str "QuizA")])
      (Value.obj [("id", Value.num 1), ("name", Value.str "QuizA")]) = .ok () ∧
    shapeEqSpec (Value.obj [("id", Value.num 1), ("name", Value.str "QuizA")])
      (Value.obj [("id", Value.num 5), ("name", Value.str "B")]) = true ∧
    compare_json_types "ep" (Value.obj [("id", Value.num 1), ("name", Value.str "QuizA")])
      (Value.obj [("id", Value.num 5), ("name", Value.str "B")]) = .ok () :=
  ⟨by simp [WFValue, WFPairs, keysNodup, containsKey],
   (compare_reflexive "ep").1 _ (by simp [WFValue, WFPairs, keysNodup, containsKey]),
   by simp [shapeEqSpec, shapeEqPerKey, getKey, containsKey],
   (compare_reflexive "ep").2 _ _
     (by simp [shapeEqSpec, shapeEqPerKey, getKey, containsKey])⟩

/-- C9: the comparator terminates on every pair of JSON values — fuel
equal to the depth of the first tree plus one always suffices for the
fuel-indexed variant of the recursion to complete and agree with the
total function — and each invocation produces a single terminal outcome,
success or exactly one mismatch record. -/
theorem compare_terminates (e : String) (a b : Value) :
    compareFuelTypes (depthV a + 1) e a b = some (compare_json_types e a b) ∧
    (compare_json_types e a b = .ok () ∨
      ∃ r, compare_json_types e a b = .error r) := by
  refine ⟨compareFuel_sufficient (depthV a + 1) e a b (Nat.lt_succ_self _), ?_⟩
  cases h : compare_json_types e a b with
  | ok u => cases u; exact Or.inl rfl
  | error r => exact Or.inr ⟨r, rfl⟩

/-- C10: on well-formed values (unique object keys, as the BTreeMap
representation guarantees), success of the comparator is symmetric:
comparing a against b succeeds exactly when comparing b against a does. -/
theorem compare_success_symmetric (e : String) (a b : Value)
    (hwa : WFValue a = true) (hwb : WFValue b = true) :
    (compare_json_types e a b = .ok () ↔ compare_json_types e b a = .ok ()) := by
  rw [compare_ok_iff_shapeEq, compare_ok_iff_shapeEq]
  exact ⟨fun h => shapeEqSpec_symm hwa hwb h, fun h => shapeEqSpec_symm hwb hwa h⟩

/-- Witness for C10 at two concrete well-formed objects. -/
theorem compare_success_symmetric_witness :
    WFValue (Value.obj [("x", Value.num 1)]) = true ∧
    WFValue (Value.obj [("x", Value.str "s")]) = true ∧
    (compare_json_types "ep" (Value.obj [("x", Value.num 1)])
        (Value.obj [("x", Value.str "s")]) = .ok () ↔
      compare_json_types "ep" (Value.obj [("x", Value.str "s")])
        (Value.obj [("x", Value.num 1)]) = .ok ()) :=
  ⟨by simp [WFValue, WFPairs, keysNodup, containsKey],
   by simp [WFValue, WFPairs, keysNodup, containsKey],
   compare_success_symmetric "ep" _ _
     (by simp [WFValue, WFPairs, keysNodup, containsKey])
     (by simp [WFValue, WFPairs, keysNodup, containsKey])⟩

end Fuzzer
